import Mathlib

/-!
Verification of the GNUnet CHK (content hash key) encoder implemented in
`contrib/gnunet-chk.py`.  The development is a shallow embedding of the
Python program: byte strings become `List Nat`, the SHA-512 hash and the
AES block cipher (external libraries) become abstract function parameters,
Python while-loops become fuel-indexed structural recursions, and Python
exceptions (`IOError`, `AssertionError`, attribute errors on `None`)
become an explicit error type.
-/

set_option maxHeartbeats 1000000
set_option maxRecDepth 10000

/-- Data block size: `DBLOCK_SIZE = (32 * 1024)`. -/
def DBLOCK_SIZE : Nat := 32 * 1024

/-- Fan-out of the hash tree: `CHK_PER_INODE = 256`. -/
def CHK_PER_INODE : Nat := 256

/-- SHA-512 digest length in bytes. -/
def CHK_HASH_SIZE : Nat := 64

/-- Query hash length, again a SHA-512 digest. -/
def CHK_QUERY_SIZE : Nat := CHK_HASH_SIZE

/-- Errors of the embedded program: `ioError` models the caught `IOError`
(the Python function returns `None` for it); `fault` models an uncaught
Python exception (failed `assert`, attribute access on `None`). -/
inductive EncErr where
  | ioError : EncErr
  | fault : EncErr
deriving DecidableEq

/-- Loop of `compute_depth_`: `while (fl < size): depth += 1;
if fl * CHK_PER_INODE < fl: return depth; fl = fl * CHK_PER_INODE`.
The `fuel` argument bounds the number of iterations; `compute_depth_`
supplies enough fuel for the loop to run to completion. -/
def depthGo (size : Nat) : Nat → Nat → Nat → Nat
  | 0, _, depth => depth
  | fuel + 1, fl, depth =>
    if fl < size then
      if fl * CHK_PER_INODE < fl then depth + 1
      else depthGo size fuel (fl * CHK_PER_INODE) (depth + 1)
    else depth

/-- Embeds `compute_depth_(size)`: depth of the hash tree, always ≥ 1. -/
def compute_depth_ (size : Nat) : Nat :=
  depthGo size (size + 1) DBLOCK_SIZE 1

/-- Embeds `compute_tree_size_(depth)`: `rsize = DBLOCK_SIZE; for cnt in
range(0, depth): rsize *= CHK_PER_INODE`. -/
def compute_tree_size_ (depth : Nat) : Nat :=
  (List.range depth).foldl (fun rsize _ => rsize * CHK_PER_INODE) DBLOCK_SIZE

/-- Embeds `compute_chk_offset_(depth, end_offset)`: offset of the CHK for the
current block in the IBlock above.  The Python decrements `end_offset`
when `depth > 0`; callers guarantee `end_offset > 0` there (the
`offset > 0` assertion of `compute_iblock_size_` runs first), so Nat
truncating subtraction agrees with the source. -/
def compute_chk_offset_ (depth end_offset : Nat) : Nat :=
  let bds := compute_tree_size_ depth
  let e := if 0 < depth then end_offset - 1 else end_offset
  e / bds % CHK_PER_INODE

/-- Embeds `compute_iblock_size_(depth, offset)`: number of elements of the
IBlock closed at payload offset `offset`.  The Python `assert`s
`depth > 0` and `offset > 0`; they are enforced at the call site inside
the encoder loop.  (`mod is 0` in the source is value equality: CPython
interns the integer 0.) -/
def compute_iblock_size_ (depth offset : Nat) : Nat :=
  let bds := compute_tree_size_ depth
  let m := offset % bds
  if m = 0 then CHK_PER_INODE
  else
    let bds2 := bds / CHK_PER_INODE
    let ret := m / bds2
    if m % bds2 ≠ 0 then ret + 1 else ret

/-- The child-count formula as the spec words it: full fan-out on a span
boundary, otherwise the ceiling of `(offset mod span(depth)) /
span(depth - 1)`. -/
def iblock_size_spec (depth offset : Nat) : Nat :=
  if offset % compute_tree_size_ depth = 0 then CHK_PER_INODE
  else
    let m := offset % compute_tree_size_ depth
    m / compute_tree_size_ (depth - 1) +
      (if m % compute_tree_size_ (depth - 1) = 0 then 0 else 1)

/-- Variant of the depth loop with the overflow-guard branch removed,
used to express that the guard is unreachable. -/
def depthGoNoGuard (size : Nat) : Nat → Nat → Nat → Nat
  | 0, _, depth => depth
  | fuel + 1, fl, depth =>
    if fl < size then depthGoNoGuard size fuel (fl * CHK_PER_INODE) (depth + 1)
    else depth

theorem compute_tree_size_eq (depth : Nat) :
    compute_tree_size_ depth = DBLOCK_SIZE * CHK_PER_INODE ^ depth := by
  have h : ∀ (n : Nat) (a : Nat),
      (List.range n).foldl (fun rsize _ => rsize * CHK_PER_INODE) a =
        a * CHK_PER_INODE ^ n := by
    intro n
    induction n with
    | zero => intro a; simp
    | succ m ih =>
      intro a
      rw [List.range_succ, List.foldl_append]
      simp only [List.foldl_cons, List.foldl_nil]
      rw [ih, pow_succ, mul_assoc]
  simpa [compute_tree_size_] using h depth DBLOCK_SIZE

theorem tree_size_pos (depth : Nat) : 0 < compute_tree_size_ depth := by
  rw [compute_tree_size_eq]
  have : (0:Nat) < DBLOCK_SIZE := by norm_num [DBLOCK_SIZE]
  exact Nat.mul_pos this (Nat.pos_pow_of_pos depth (by norm_num [CHK_PER_INODE]))

theorem tree_size_succ (depth : Nat) :
    compute_tree_size_ (depth + 1) = compute_tree_size_ depth * CHK_PER_INODE := by
  rw [compute_tree_size_eq, compute_tree_size_eq, pow_succ, mul_assoc]

theorem tree_size_strict_mono {a b : Nat} (h : a < b) :
    compute_tree_size_ a < compute_tree_size_ b := by
  rw [compute_tree_size_eq, compute_tree_size_eq]
  have hd : (0:Nat) < DBLOCK_SIZE := by norm_num [DBLOCK_SIZE]
  exact (Nat.mul_lt_mul_left hd).mpr
    (Nat.pow_lt_pow_right (by norm_num [CHK_PER_INODE]) h)

/-- The overflow-guard test `fl * CHK_PER_INODE < fl` never succeeds on
arbitrary-precision integers. -/
theorem guard_never (fl : Nat) : ¬ fl * CHK_PER_INODE < fl := by
  have : fl ≤ fl * CHK_PER_INODE :=
    Nat.le_mul_of_pos_right fl (by norm_num [CHK_PER_INODE])
  omega

theorem depthGo_eq_noGuard (size fuel fl depth : Nat) :
    depthGo size fuel fl depth = depthGoNoGuard size fuel fl depth := by
  induction fuel generalizing fl depth with
  | zero => rfl
  | succ f ih =>
    simp only [depthGo, depthGoNoGuard]
    by_cases h : fl < size
    · simp only [if_pos h, if_neg (guard_never fl)]
      exact ih (fl * CHK_PER_INODE) (depth + 1)
    · simp [h]

theorem depthGo_le (size fuel fl depth : Nat) :
    depth ≤ depthGo size fuel fl depth := by
  induction fuel generalizing fl depth with
  | zero => exact Nat.le_refl depth
  | succ f ih =>
    simp only [depthGo]
    by_cases h : fl < size
    · simp only [if_pos h, if_neg (guard_never fl)]
      exact Nat.le_trans (Nat.le_succ depth) (ih (fl * CHK_PER_INODE) (depth + 1))
    · simp [h]

/-- Upper bound: the returned depth covers the size.  With enough fuel,
`size ≤ fl * 256 ^ (result - depth)`. -/
theorem depthGo_upper (fuel : Nat) :
    ∀ fl depth size, size ≤ fl * CHK_PER_INODE ^ fuel →
      size ≤ fl * CHK_PER_INODE ^ (depthGo size fuel fl depth - depth) := by
  induction fuel with
  | zero =>
    intro fl depth size h
    simpa [depthGo] using h
  | succ f ih =>
    intro fl depth size h
    simp only [depthGo]
    by_cases hlt : fl < size
    · simp only [if_pos hlt, if_neg (guard_never fl)]
      have h2 : size ≤ fl * CHK_PER_INODE * CHK_PER_INODE ^ f := by
        rw [mul_assoc, ← pow_succ']
        exact h
      have hrec := ih (fl * CHK_PER_INODE) (depth + 1) size h2
      have hge := depthGo_le size f (fl * CHK_PER_INODE) (depth + 1)
      set r := depthGo size f (fl * CHK_PER_INODE) (depth + 1) with hr
      have hexp : r - (depth + 1) + 1 = r - depth := by omega
      calc size ≤ fl * CHK_PER_INODE * CHK_PER_INODE ^ (r - (depth + 1)) := hrec
        _ = fl * CHK_PER_INODE ^ (r - (depth + 1) + 1) := by
              rw [mul_assoc, ← pow_succ']
        _ = fl * CHK_PER_INODE ^ (r - depth) := by rw [hexp]
    · simp only [if_neg hlt]
      have : size ≤ fl := Nat.le_of_not_lt hlt
      simpa using this

/-- Lower bound: if the loop iterated at all, the span one level below
the result was still smaller than the size. -/
theorem depthGo_lower (fuel : Nat) :
    ∀ fl depth size, depth < depthGo size fuel fl depth →
      fl * CHK_PER_INODE ^ (depthGo size fuel fl depth - depth - 1) < size := by
  induction fuel with
  | zero =>
    intro fl depth size h
    simp [depthGo] at h
  | succ f ih =>
    intro fl depth size h
    simp only [depthGo] at h ⊢
    by_cases hlt : fl < size
    · simp only [if_pos hlt, if_neg (guard_never fl)] at h ⊢
      set r := depthGo size f (fl * CHK_PER_INODE) (depth + 1) with hr
      have hge : depth + 1 ≤ r := depthGo_le size f (fl * CHK_PER_INODE) (depth + 1)
      by_cases hstep : depth + 1 < r
      · have hrec := ih (fl * CHK_PER_INODE) (depth + 1) size hstep
        have hexp : r - (depth + 1) - 1 + 1 = r - depth - 1 := by omega
        calc fl * CHK_PER_INODE ^ (r - depth - 1)
            = fl * CHK_PER_INODE ^ (r - (depth + 1) - 1 + 1) := by rw [hexp]
          _ = fl * CHK_PER_INODE * CHK_PER_INODE ^ (r - (depth + 1) - 1) := by
              rw [mul_assoc, ← pow_succ']
          _ < size := hrec
      · have hreq : r = depth + 1 := by omega
        rw [hreq]
        simpa using hlt
    · simp [hlt] at h

/-- Fuel irrelevance: once the fuel covers the iterations actually
needed, adding more fuel does not change the result. -/
theorem depthGo_fuel_stable (f1 : Nat) :
    ∀ f2 fl depth size, size ≤ fl * CHK_PER_INODE ^ f1 → f1 ≤ f2 →
      depthGo size f1 fl depth = depthGo size f2 fl depth := by
  induction f1 with
  | zero =>
    intro f2 fl depth size h _
    have hnlt : ¬ fl < size := by simpa using h
    cases f2 with
    | zero => rfl
    | succ g => simp [depthGo, hnlt]
  | succ f ih =>
    intro f2 fl depth size h hle
    cases f2 with
    | zero => omega
    | succ g =>
      simp only [depthGo]
      by_cases hlt : fl < size
      · simp only [if_pos hlt, if_neg (guard_never fl)]
        have h2 : size ≤ fl * CHK_PER_INODE * CHK_PER_INODE ^ f := by
          rw [mul_assoc, ← pow_succ']
          exact h
        exact ih g (fl * CHK_PER_INODE) (depth + 1) size h2 (by omega)
      · simp [hlt]

theorem default_fuel_enough (size : Nat) :
    size ≤ DBLOCK_SIZE * CHK_PER_INODE ^ (size + 1) := by
  have h1 : size < CHK_PER_INODE ^ (size + 1) := by
    calc size < size + 1 := Nat.lt_succ_self size
      _ ≤ CHK_PER_INODE ^ (size + 1) :=
          Nat.le_of_lt
            (Nat.lt_pow_self (a := CHK_PER_INODE) (by norm_num [CHK_PER_INODE]) (size + 1))
  calc size ≤ CHK_PER_INODE ^ (size + 1) := Nat.le_of_lt h1
    _ ≤ DBLOCK_SIZE * CHK_PER_INODE ^ (size + 1) :=
        Nat.le_mul_of_pos_left _ (by norm_num [DBLOCK_SIZE])

theorem compute_depth_pos (size : Nat) : 1 ≤ compute_depth_ size :=
  depthGo_le size (size + 1) DBLOCK_SIZE 1

theorem compute_depth_covers (size : Nat) :
    size ≤ compute_tree_size_ (compute_depth_ size - 1) := by
  have := depthGo_upper (size + 1) DBLOCK_SIZE 1 size (default_fuel_enough size)
  rw [compute_tree_size_eq]
  simpa [compute_depth_] using this

theorem compute_depth_minimal (size : Nat) (h : 2 ≤ compute_depth_ size) :
    compute_tree_size_ (compute_depth_ size - 2) < size := by
  have hlt : 1 < depthGo size (size + 1) DBLOCK_SIZE 1 := by
    simpa [compute_depth_] using h
  have := depthGo_lower (size + 1) DBLOCK_SIZE 1 size hlt
  rw [compute_tree_size_eq]
  have heq : depthGo size (size + 1) DBLOCK_SIZE 1 - 1 - 1 =
      compute_depth_ size - 2 := by
    simp [compute_depth_]
    omega
  rw [heq] at this
  exact this

theorem compute_depth_mono {s1 s2 : Nat} (h : s1 ≤ s2) :
    compute_depth_ s1 ≤ compute_depth_ s2 := by
  have hmono : ∀ fuel fl depth, depthGo s1 fuel fl depth ≤ depthGo s2 fuel fl depth := by
    intro fuel
    induction fuel with
    | zero => intro fl depth; exact Nat.le_refl depth
    | succ f ih =>
      intro fl depth
      simp only [depthGo]
      by_cases h1 : fl < s1
      · have h2 : fl < s2 := Nat.lt_of_lt_of_le h1 h
        simp only [if_pos h1, if_pos h2, if_neg (guard_never fl)]
        exact ih (fl * CHK_PER_INODE) (depth + 1)
      · simp only [if_neg h1]
        by_cases h2 : fl < s2
        · simp only [if_pos h2, if_neg (guard_never fl)]
          exact Nat.le_trans (Nat.le_succ depth)
            (depthGo_le s2 f (fl * CHK_PER_INODE) (depth + 1))
        · simp [h2]
  have hstable : depthGo s1 (s1 + 1) DBLOCK_SIZE 1 = depthGo s1 (s2 + 1) DBLOCK_SIZE 1 :=
    depthGo_fuel_stable (s1 + 1) (s2 + 1) DBLOCK_SIZE 1 s1
      (default_fuel_enough s1) (by omega)
  calc compute_depth_ s1 = depthGo s1 (s2 + 1) DBLOCK_SIZE 1 := hstable
    _ ≤ depthGo s2 (s2 + 1) DBLOCK_SIZE 1 := hmono (s2 + 1) DBLOCK_SIZE 1
    _ = compute_depth_ s2 := rfl

/-- C3 counterexample: at `size = 1` the claimed strict lower bound
`span_at_depth(compute_depth_(size) - 1) < size` fails: the depth is 1
and `span_at_depth(0) = 32768` is not `< 1`. -/
theorem C3_counterexample :
    compute_depth_ 1 = 1 ∧ compute_tree_size_ (compute_depth_ 1 - 1) = 32768 ∧
      ¬ compute_tree_size_ (compute_depth_ 1 - 1) < 1 := by
  refine ⟨by decide, by decide, by decide⟩

/-- C3 (amended): `compute_depth_` is monotone non-decreasing, and is
minimal in the sense that `size ≤ span_at_depth(compute_depth_(size) - 1)`
for every size, while `span_at_depth(compute_depth_(size) - 2) < size`
whenever the computed depth is at least 2 (for depth 1 there is no lower
level, and small sizes do not satisfy the claimed strict bound). -/
theorem C3_depth_monotone_minimal :
    (∀ s1 s2 : Nat, s1 ≤ s2 → compute_depth_ s1 ≤ compute_depth_ s2) ∧
    (∀ size : Nat, size ≤ compute_tree_size_ (compute_depth_ size - 1)) ∧
    (∀ size : Nat, 2 ≤ compute_depth_ size →
      compute_tree_size_ (compute_depth_ size - 2) < size) := by
  exact ⟨fun s1 s2 h => compute_depth_mono h,
    fun size => compute_depth_covers size,
    fun size h => compute_depth_minimal size h⟩

/-- Witness for C3: concrete instances of the three amended properties. -/
theorem C3_witness :
    compute_depth_ 3 ≤ compute_depth_ 40000 ∧
      40000 ≤ compute_tree_size_ (compute_depth_ 40000 - 1) ∧
      compute_tree_size_ (compute_depth_ 40000 - 2) < 40000 :=
  ⟨C3_depth_monotone_minimal.1 3 40000 (by decide),
   C3_depth_monotone_minimal.2.1 40000,
   C3_depth_monotone_minimal.2.2 40000 (by decide)⟩

/-- C10: the overflow-guard branch of `compute_depth_` is unreachable
(its test `fl * CHK_PER_INODE < fl` is never true for nonnegative
arbitrary-precision integers), the loop needs no more iterations than
the supplied fuel allows for any larger fuel (termination), and the
result is the exact minimal depth `d ≥ 1` with
`size ≤ span_at_depth(d - 1)`. -/
theorem C10_overflow_guard_unreachable :
    (∀ size fuel fl depth : Nat,
        depthGo size fuel fl depth = depthGoNoGuard size fuel fl depth) ∧
    (∀ size fuel : Nat, size + 1 ≤ fuel →
        depthGo size fuel DBLOCK_SIZE 1 = compute_depth_ size) ∧
    (∀ size : Nat, 1 ≤ compute_depth_ size ∧
        size ≤ compute_tree_size_ (compute_depth_ size - 1) ∧
        ∀ d : Nat, 1 ≤ d → size ≤ compute_tree_size_ (d - 1) →
          compute_depth_ size ≤ d) := by
  refine ⟨fun size fuel fl depth => depthGo_eq_noGuard size fuel fl depth,
    fun size fuel hf =>
      (depthGo_fuel_stable (size + 1) fuel DBLOCK_SIZE 1 size
        (default_fuel_enough size) hf).symm,
    fun size => ⟨compute_depth_pos size, compute_depth_covers size, ?_⟩⟩
  intro d hd hcover
  by_contra hlt
  push_neg at hlt
  have h2 : 2 ≤ compute_depth_ size := by omega
  have hmin := compute_depth_minimal size h2
  have hle : d - 1 ≤ compute_depth_ size - 2 := by omega
  have : compute_tree_size_ (d - 1) ≤ compute_tree_size_ (compute_depth_ size - 2) := by
    rcases Nat.eq_or_lt_of_le hle with heq | hlt2
    · rw [heq]
    · exact Nat.le_of_lt (tree_size_strict_mono hlt2)
  omega

/-- Witness for C10: concrete instances of the fuel-stability and
minimality statements. -/
theorem C10_witness :
    depthGo 5 9 DBLOCK_SIZE 1 = compute_depth_ 5 ∧
      compute_depth_ 70000 ≤ 2 :=
  ⟨C10_overflow_guard_unreachable.2.1 5 9 (by decide),
   (C10_overflow_guard_unreachable.2.2 70000).2.2 2 (by decide) (by decide)⟩

/-- C4: for `depth > 0` and `offset > 0` the IBlock size function
computes the full fan-out on an exact span boundary and otherwise the
ceiling `ceil((offset mod span(depth)) / span(depth - 1))`, and the
result never exceeds the fan-out. -/
theorem C4_iblock_size (depth offset : Nat) (hd : 0 < depth) (_ho : 0 < offset) :
    compute_iblock_size_ depth offset = iblock_size_spec depth offset ∧
      compute_iblock_size_ depth offset ≤ CHK_PER_INODE := by
  have hbds : compute_tree_size_ depth = compute_tree_size_ (depth - 1) * CHK_PER_INODE := by
    conv_lhs => rw [show depth = depth - 1 + 1 by omega]
    exact tree_size_succ (depth - 1)
  have hdiv : compute_tree_size_ depth / CHK_PER_INODE = compute_tree_size_ (depth - 1) := by
    rw [hbds]
    exact Nat.mul_div_cancel _ (by norm_num [CHK_PER_INODE])
  have hpos : 0 < compute_tree_size_ (depth - 1) := tree_size_pos _
  constructor
  · by_cases hm : offset % compute_tree_size_ depth = 0
    · simp [compute_iblock_size_, iblock_size_spec, hm]
    · simp only [compute_iblock_size_, iblock_size_spec, hdiv, if_neg hm]
      by_cases hr : offset % compute_tree_size_ depth % compute_tree_size_ (depth - 1) = 0
      · simp [hr]
      · simp [hr]
  · by_cases hm : offset % compute_tree_size_ depth = 0
    · simp [compute_iblock_size_, hm]
    · simp only [compute_iblock_size_, hdiv, if_neg hm]
      have hlt : offset % compute_tree_size_ depth < compute_tree_size_ depth :=
        Nat.mod_lt _ (tree_size_pos depth)
      have hql : offset % compute_tree_size_ depth / compute_tree_size_ (depth - 1)
          < CHK_PER_INODE := by
        rw [Nat.div_lt_iff_lt_mul hpos]
        calc offset % compute_tree_size_ depth < compute_tree_size_ depth := hlt
          _ = CHK_PER_INODE * compute_tree_size_ (depth - 1) := by
              rw [hbds, Nat.mul_comm]
      by_cases hr : offset % compute_tree_size_ depth % compute_tree_size_ (depth - 1) = 0
      · have hcond : ¬ offset % compute_tree_size_ depth %
            compute_tree_size_ (depth - 1) ≠ 0 := by simp [hr]
        simp only [if_neg hcond]
        omega
      · simp only [if_pos hr]
        omega

/-- Witness for C4: the trailing internal block at depth 1 closed at
payload offset 5 holds a single child. -/
theorem C4_witness :
    compute_iblock_size_ 1 5 = iblock_size_spec 1 5 ∧
      compute_iblock_size_ 1 5 ≤ CHK_PER_INODE :=
  C4_iblock_size 1 5 (by decide) (by decide)

/-- Embeds `AESKey.__init__(passphrase)`: derives the 32-byte cipher key and the
16-byte initialization vector from the digest, as the Python constructor
does on `bytearray`s: when the digest is longer than 32 bytes the key is
its first 32 bytes and the iv comes from the following bytes (copied over
a zero-filled 16-byte array when fewer than 16 remain); otherwise the
digest is copied over a zero-filled 32-byte key and the iv stays zero. -/
def aeskey (passphrase : List Nat) : List Nat × List Nat :=
  let key0 := List.replicate 32 0
  let iv0 := List.replicate 16 0
  if 32 < passphrase.length then
    let key := passphrase.take 32
    let rest := passphrase.drop 32
    if 16 < rest.length then (key, rest.take 16)
    else (key, rest ++ iv0.drop rest.length)
  else (passphrase ++ key0.drop passphrase.length, iv0)

/-- The key expansion as the spec words it: bytes 0..31 of the digest,
zero-padded on the right. -/
def derive_key_spec (digest : List Nat) : List Nat :=
  digest.take 32 ++ List.replicate (32 - digest.length) 0

/-- The iv expansion as the spec words it: the next 16 bytes of the
digest, zero-padded on the right. -/
def derive_iv_spec (digest : List Nat) : List Nat :=
  (digest.drop 32).take 16 ++ List.replicate (16 - (digest.drop 32).length) 0

theorem drop_replicate_sub (n m : Nat) :
    (List.replicate n (0:Nat)).drop m = List.replicate (n - m) 0 := by
  simp [List.drop_replicate]

theorem aeskey_fst_eq (digest : List Nat) :
    (aeskey digest).1 = derive_key_spec digest := by
  by_cases h : 32 < digest.length
  · by_cases h2 : 16 < (digest.drop 32).length
    · simp only [aeskey, if_pos h, if_pos h2, derive_key_spec]
      rw [Nat.sub_eq_zero_of_le (Nat.le_of_lt h)]
      simp
    · simp only [aeskey, if_pos h, if_neg h2, derive_key_spec]
      rw [Nat.sub_eq_zero_of_le (Nat.le_of_lt h)]
      simp
  · simp only [aeskey, if_neg h, derive_key_spec]
    rw [List.take_of_length_le (by omega), drop_replicate_sub]

theorem aeskey_snd_eq (digest : List Nat) :
    (aeskey digest).2 = derive_iv_spec digest := by
  by_cases h : 32 < digest.length
  · by_cases h2 : 16 < (digest.drop 32).length
    · simp only [aeskey, if_pos h, if_pos h2, derive_iv_spec]
      rw [Nat.sub_eq_zero_of_le (Nat.le_of_lt h2)]
      simp
    · simp only [aeskey, if_pos h, if_neg h2, derive_iv_spec]
      rw [List.take_of_length_le (by omega), drop_replicate_sub]
  · simp only [aeskey, if_neg h, derive_iv_spec]
    have hlen : digest.length ≤ 32 := by omega
    rw [List.drop_eq_nil_of_le (by simpa using hlen)]
    simp

theorem aeskey_key_len (digest : List Nat) : (aeskey digest).1.length = 32 := by
  rw [aeskey_fst_eq]
  simp only [derive_key_spec, List.length_append, List.length_take,
    List.length_replicate]
  omega

theorem aeskey_iv_len (digest : List Nat) : (aeskey digest).2.length = 16 := by
  rw [aeskey_snd_eq]
  simp only [derive_iv_spec, List.length_append, List.length_take,
    List.length_replicate, List.length_drop]
  omega

/-- C6: the derived cipher key is bytes 0..31 of the digest zero-padded
on the right, the derived iv is the next 16 bytes zero-padded on the
right, and the derivation is a pure function of the digest (the full
expansion formula determines the pair). -/
theorem C6_key_iv_derivation (digest : List Nat) :
    (aeskey digest).1 = derive_key_spec digest ∧
      (aeskey digest).2 = derive_iv_spec digest :=
  ⟨aeskey_fst_eq digest, aeskey_snd_eq digest⟩

/-- The fixed 32-character alphabet of `encode_data_to_string`. -/
def echart : List Char := "0123456789ABCDEFGHIJKLMNOPQRSTUV".data

/-- Big-endian value of a byte string, the "contiguous bit stream" of the
spec read as one number. -/
def natValue (data : List Nat) : Nat :=
  data.foldl (fun a b => a * 256 + b) 0

/-- Number of zero bits appended to the final partial 5-bit group. -/
def padBits (n : Nat) : Nat := (5 - n * 8 % 5) % 5

/-- Loop of `encode_data_to_string`, state `(rpos, vbit, bits, out)`.
Shifts are expressed on `Nat`: `x << k` is `x * 2 ^ k`, `x >> k` is
`x / 2 ^ k`, `x & 31` is `x % 32`.  The in-loop
`assert (vbit == ((size * 8) % 5))` is modelled by the `.fault` branch. -/
def encodeGo (data : List Nat) (size : Nat) :
    Nat → Nat → Nat → Nat → List Char → Except EncErr (List Char)
  | 0, _, _, _, _ => .error .fault
  | fuel + 1, rpos, vbit, bits, out =>
    if rpos < size ∨ 0 < vbit then
      let rpos2 := if rpos < size ∧ vbit < 5 then rpos + 1 else rpos
      let bits2 := if rpos < size ∧ vbit < 5 then bits * 256 + data.getD rpos 0 else bits
      let vbit2 := if rpos < size ∧ vbit < 5 then vbit + 8 else vbit
      if vbit2 < 5 then
        if vbit2 = size * 8 % 5 then
          encodeGo data size fuel rpos2 0 (bits2 * 2 ^ (5 - vbit2))
            (out ++ [echart.getD (bits2 * 2 ^ (5 - vbit2) % 32) 'A'])
        else .error .fault
      else
        encodeGo data size fuel rpos2 (vbit2 - 5) bits2
          (out ++ [echart.getD (bits2 / 2 ^ (vbit2 - 5) % 32) 'A'])
    else .ok out

/-- Embeds `encode_data_to_string(data)`: the function `assert`s that the input
is nonempty, then runs the 5-bit regrouping loop; the fuel `2n + 2`
strictly exceeds the `ceil(8n/5) + 1` loop entries the run needs. -/
def encode_data_to_string (data : List Nat) : Except EncErr (List Char) :=
  if data.length = 0 then .error .fault
  else encodeGo data data.length (2 * data.length + 2) 0 0 0 []

theorem natValue_append_one (xs : List Nat) (b : Nat) :
    natValue (xs ++ [b]) = natValue xs * 256 + b := by
  have h : ∀ (a : Nat), (xs ++ [b]).foldl (fun a b => a * 256 + b) a =
      xs.foldl (fun a b => a * 256 + b) a * 256 + b := by
    intro a
    rw [List.foldl_append]
    simp
  simp only [natValue]
  exact h 0

theorem natValue_take_succ (data : List Nat) (rpos : Nat) (h : rpos < data.length) :
    natValue (data.take (rpos + 1)) =
      natValue (data.take rpos) * 256 + data.getD rpos 0 := by
  rw [List.take_succ, List.getElem?_eq_getElem h]
  simp only [Option.toList_some]
  rw [natValue_append_one]
  rw [List.getD_eq_getElem data 0 h]

theorem getD_append_length (l : List Char) (c d : Char) :
    (l ++ [c]).getD l.length d = c := by
  rw [List.getD_append_right l [c] d l.length (Nat.le_refl _)]
  simp

theorem div_eat_shift (a b e : Nat) (hb : b < 256) :
    (a * 256 + b) / 2 ^ (e + 8) = a / 2 ^ e := by
  have h1 : (2:Nat) ^ (e + 8) = 256 * 2 ^ e := by
    rw [pow_add]
    norm_num [Nat.mul_comm]
  rw [h1, ← Nat.div_div_eq_div_mul]
  congr 1
  rw [Nat.mul_comm a 256]
  rw [Nat.mul_add_div (by norm_num)]
  simp [Nat.div_eq_of_lt hb]

theorem mul_pow_div_pow (a s t : Nat) (h : s ≤ t) :
    a * 2 ^ s / 2 ^ t = a / 2 ^ (t - s) := by
  have h1 : (2:Nat) ^ t = 2 ^ s * 2 ^ (t - s) := by
    rw [← pow_add]
    congr 1
    omega
  rw [h1, ← Nat.div_div_eq_div_mul]
  rw [Nat.mul_comm a (2 ^ s), Nat.mul_div_cancel_left a (Nat.pos_pow_of_pos s (by norm_num))]

/-- Invariant lemma for the 5-bit regrouping loop: from any state
consistent with having consumed `rpos` bytes and emitted `out.length`
5-bit groups, and given enough fuel, the loop succeeds and returns the
most-significant-bit-first base-32 rendering of the entire input. -/
theorem encodeGo_spec (data : List Nat) (hbytes : ∀ b ∈ data, b < 256) :
    ∀ fuel rpos vbit bits out,
      rpos ≤ data.length →
      8 * rpos = 5 * out.length + vbit →
      bits = natValue (data.take rpos) →
      (∀ i, i < out.length → out.getD i 'A' =
        echart.getD (bits / 2 ^ (vbit + 5 * (out.length - 1 - i)) % 32) 'A') →
      (8 * data.length + 4) / 5 + 1 ≤ fuel + out.length →
      ∃ res, encodeGo data data.length fuel rpos vbit bits out = .ok res ∧
        res.length = (8 * data.length + 4) / 5 ∧
        (∀ i, i < res.length → res.getD i 'A' =
          echart.getD (natValue data * 2 ^ padBits data.length /
            2 ^ (5 * (res.length - 1 - i)) % 32) 'A') := by
  intro fuel
  induction fuel with
  | zero =>
    intro rpos vbit bits out hrpos hI2 _ _ hfuel
    exfalso
    omega
  | succ f ih =>
    intro rpos vbit bits out hrpos hI2 hbits hform hfuel
    by_cases hloop : rpos < data.length ∨ 0 < vbit
    case neg =>
      have hrn : rpos = data.length := by omega
      have hv0 : vbit = 0 := by omega
      refine ⟨out, by simp [encodeGo, hloop], by omega, ?_⟩
      intro i hi
      have hpad : padBits data.length = 0 := by
        simp only [padBits]
        omega
      rw [hform i hi, hbits, hrn, List.take_length, hpad, hv0]
      norm_num
    case pos =>
      by_cases heat : rpos < data.length ∧ vbit < 5
      · -- the loop eats one more byte, then emits one character
        have hb : data.getD rpos 0 < 256 := by
          rw [List.getD_eq_getElem data 0 heat.1]
          exact hbytes _ (List.getElem_mem heat.1)
        have hvb2 : ¬ (vbit + 8 < 5) := by omega
        have hred : encodeGo data data.length (f + 1) rpos vbit bits out =
            encodeGo data data.length f (rpos + 1) (vbit + 8 - 5)
              (bits * 256 + data.getD rpos 0)
              (out ++ [echart.getD ((bits * 256 + data.getD rpos 0) /
                2 ^ (vbit + 8 - 5) % 32) 'A']) := by
          simp only [encodeGo, if_pos hloop, if_pos heat, if_neg hvb2]
        rw [hred]
        apply ih
        · omega
        · simp only [List.length_append, List.length_cons, List.length_nil]
          omega
        · rw [natValue_take_succ data rpos heat.1, hbits]
        · intro i hi
          simp only [List.length_append, List.length_cons, List.length_nil] at hi
          rcases Nat.lt_or_ge i out.length with hlt | hge
          · rw [List.getD_append _ _ _ _ hlt, hform i hlt]
            have hexp : vbit + 8 - 5 + 5 * (out.length + 1 - 1 - i) =
                vbit + 5 * (out.length - 1 - i) + 8 := by omega
            rw [List.length_append, List.length_cons, List.length_nil, hexp,
              div_eat_shift _ _ _ hb]
          · have hieq : i = out.length := by omega
            rw [hieq, getD_append_length, List.length_append, List.length_cons,
              List.length_nil]
            have hexp : out.length + 1 - 1 - out.length = 0 := by omega
            rw [hexp]
            norm_num
        · simp only [List.length_append, List.length_cons, List.length_nil]
          omega
      · by_cases hvb : vbit < 5
        · -- zero-padding of the final partial group, then the last emit
          have hrn : rpos = data.length := by
            rcases hloop with h | h
            · exact absurd ⟨h, hvb⟩ heat
            · omega
          have hvpos : 0 < vbit := by
            rcases hloop with h | h
            · exact absurd ⟨h, hvb⟩ heat
            · exact h
          have hassert : vbit = data.length * 8 % 5 := by omega
          have hL : out.length + 1 = (8 * data.length + 4) / 5 := by omega
          have hf1 : 1 ≤ f := by omega
          obtain ⟨f2, rfl⟩ : ∃ f2, f = f2 + 1 :=
            ⟨f - 1, by omega⟩
          have hnoloop : ¬ (rpos < data.length ∨ 0 < (0:Nat)) := by omega
          have hred : encodeGo data data.length (f2 + 1 + 1) rpos vbit bits out =
              .ok (out ++ [echart.getD (bits * 2 ^ (5 - vbit) % 32) 'A']) := by
            simp only [encodeGo, if_pos hloop, if_neg heat, if_pos hvb,
              if_pos hassert.symm, if_neg hnoloop]
            simp [encodeGo, hnoloop, hassert]
          refine ⟨out ++ [echart.getD (bits * 2 ^ (5 - vbit) % 32) 'A'], hred, ?_, ?_⟩
          · simp only [List.length_append, List.length_cons, List.length_nil]
            omega
          · have hNdata : bits = natValue data := by
              rw [hbits, hrn, List.take_length]
            have hpad : padBits data.length = 5 - vbit := by
              simp only [padBits]
              omega
            intro i hi
            simp only [List.length_append, List.length_cons, List.length_nil] at hi ⊢
            rcases Nat.lt_or_ge i out.length with hlt | hge
            · rw [List.getD_append _ _ _ _ hlt, hform i hlt, hNdata, hpad]
              have hs : 5 - vbit ≤ 5 * (out.length + 1 - 1 - i) := by omega
              rw [mul_pow_div_pow _ _ _ hs]
              have hexp : 5 * (out.length + 1 - 1 - i) - (5 - vbit) =
                  vbit + 5 * (out.length - 1 - i) := by omega
              rw [hexp]
            · have hieq : i = out.length := by omega
              rw [hieq, getD_append_length, hNdata, hpad]
              have hexp : out.length + 1 - 1 - out.length = 0 := by omega
              rw [hexp]
              norm_num
        · -- emit one character from already-buffered bits
          have hge5 : 5 ≤ vbit := by omega
          have hvb2 : ¬ (vbit < 5) := by omega
          have hred : encodeGo data data.length (f + 1) rpos vbit bits out =
              encodeGo data data.length f rpos (vbit - 5) bits
                (out ++ [echart.getD (bits / 2 ^ (vbit - 5) % 32) 'A']) := by
            simp only [encodeGo, if_pos hloop, if_neg heat, if_neg hvb2]
          rw [hred]
          apply ih
          · exact hrpos
          · simp only [List.length_append, List.length_cons, List.length_nil]
            omega
          · exact hbits
          · intro i hi
            simp only [List.length_append, List.length_cons, List.length_nil] at hi
            rcases Nat.lt_or_ge i out.length with hlt | hge
            · rw [List.getD_append _ _ _ _ hlt, hform i hlt]
              have hexp : vbit - 5 + 5 * (out.length + 1 - 1 - i) =
                  vbit + 5 * (out.length - 1 - i) := by omega
              rw [List.length_append, List.length_cons, List.length_nil, hexp]
            · have hieq : i = out.length := by omega
              rw [hieq, getD_append_length, List.length_append, List.length_cons,
                List.length_nil]
              have hexp : out.length + 1 - 1 - out.length = 0 := by omega
              rw [hexp]
              norm_num
          · simp only [List.length_append, List.length_cons, List.length_nil]
            omega

/-- C8 counterexample: on the empty byte sequence the encoder does not
produce the claimed `ceil(0) = 0`-character string; it fails its
`assert (0 != size)` precondition. -/
theorem C8_counterexample :
    encode_data_to_string [] = .error .fault ∧
      ∀ out, encode_data_to_string ([] : List Nat) ≠ .ok out := by
  refine ⟨rfl, ?_⟩
  intro out h
  simp [encode_data_to_string] at h

/-- C8 (amended): for every nonempty byte sequence the encoder returns a
string of exactly `ceil(8n/5)` characters over the fixed 32-character
alphabet, each character taking 5 bits most-significant-bit-first from
the contiguous input bit stream with the final partial group
zero-padded; the empty sequence is rejected by an assertion. -/
theorem C8_encode_msb_base32 (data : List Nat) (hne : data ≠ [])
    (hbytes : ∀ b ∈ data, b < 256) :
    ∃ out, encode_data_to_string data = .ok out ∧
      out.length = (8 * data.length + 4) / 5 ∧
      (∀ i, i < out.length → out.getD i 'A' =
        echart.getD (natValue data * 2 ^ padBits data.length /
          2 ^ (5 * (out.length - 1 - i)) % 32) 'A') ∧
      (∀ c ∈ out, c ∈ echart) := by
  have hlen : ¬ data.length = 0 := by
    simpa using hne
  obtain ⟨res, hok, hlenres, hform⟩ :=
    encodeGo_spec data hbytes (2 * data.length + 2) 0 0 0 []
      (Nat.zero_le _) (by simp) (by simp [natValue]) (by simp) (by omega)
  refine ⟨res, ?_, hlenres, hform, ?_⟩
  · simp only [encode_data_to_string, if_neg hlen]
    exact hok
  · intro c hc
    obtain ⟨i, hi, hceq⟩ := List.mem_iff_getElem.mp hc
    have hD := hform i hi
    rw [List.getD_eq_getElem res 'A' hi] at hD
    have hlt32 : natValue data * 2 ^ padBits data.length /
        2 ^ (5 * (res.length - 1 - i)) % 32 < echart.length := by
      have : natValue data * 2 ^ padBits data.length /
          2 ^ (5 * (res.length - 1 - i)) % 32 < 32 := Nat.mod_lt _ (by norm_num)
      simpa [echart] using this
    rw [List.getD_eq_getElem echart 'A' hlt32] at hD
    rw [← hceq, hD]
    exact List.getElem_mem hlt32

/-- Witness for C8: a concrete one-byte input. -/
theorem C8_witness :
    ∃ out, encode_data_to_string [255] = .ok out ∧
      out.length = (8 * 1 + 4) / 5 ∧
      (∀ i, i < out.length → out.getD i 'A' =
        echart.getD (natValue [255] * 2 ^ padBits 1 /
          2 ^ (5 * (out.length - 1 - i)) % 32) 'A') ∧
      (∀ c ∈ out, c ∈ echart) := by
  have h := C8_encode_msb_base32 [255] (by decide) (by decide)
  simpa using h

/-- Embeds `aes_pad_(data)`: appends zero bytes so that the length becomes a
multiple of 16, returning `(pad_len, padded_data)`. -/
def aes_pad_ (data : List Nat) : Nat × List Nat :=
  let pad_len := data.length % 16
  if pad_len ≠ 0 then (16 - pad_len, data ++ List.replicate (16 - pad_len) 0)
  else (pad_len, data)

/-- One direction of `AES.MODE_CFB` with `segment_size=128`
(cipher feedback on full 16-byte blocks): each ciphertext block is the
plaintext block xored with the block encryption of the previous
ciphertext block (the iv for the first).  `B` is the keyed AES block
encryption, an abstract parameter (the cipher itself is library code
outside this repository).  Fuel decreases per 16-byte block. -/
def cfbEncGo (B : List Nat → List Nat) : Nat → List Nat → List Nat → List Nat
  | 0, _, _ => []
  | fuel + 1, prev, data =>
    if data = [] then []
    else
      let c := List.zipWith (fun a k => a ^^^ k) (data.take 16) (B prev)
      c ++ cfbEncGo B fuel c (data.drop 16)

/-- CFB-128 decryption: each plaintext block is the ciphertext block
xored with the block encryption of the previous ciphertext block. -/
def cfbDecGo (B : List Nat → List Nat) : Nat → List Nat → List Nat → List Nat
  | 0, _, _ => []
  | fuel + 1, prev, data =>
    if data = [] then []
    else
      let q := List.zipWith (fun a k => a ^^^ k) (data.take 16) (B prev)
      q ++ cfbDecGo B fuel (data.take 16) (data.drop 16)

/-- Embeds `aes_encrypt(aes_key, data)`: pad to a 16-byte boundary, run the
cipher, strip the padding from the ciphertext. -/
def aes_encrypt (B : List Nat → List Nat) (iv data : List Nat) : List Nat :=
  let pr := aes_pad_ data
  let enc := cfbEncGo B pr.2.length iv pr.2
  if pr.1 ≠ 0 then enc.take (enc.length - pr.1) else enc

/-- Embeds `aes_decrypt(aes_key, data)`: pad to a 16-byte boundary, run the
cipher in decryption direction, strip the padding from the result. -/
def aes_decrypt (B : List Nat → List Nat) (iv data : List Nat) : List Nat :=
  let pr := aes_pad_ data
  let dec := cfbDecGo B pr.2.length iv pr.2
  if pr.1 ≠ 0 then dec.take (dec.length - pr.1) else dec

theorem cfbEncGo_nil (B : List Nat → List Nat) (fuel : Nat) (prev : List Nat) :
    cfbEncGo B fuel prev [] = [] := by
  cases fuel <;> simp [cfbEncGo]

theorem zip_xor_cancel (a : List Nat) :
    ∀ b : List Nat, a.length ≤ b.length →
      List.zipWith (fun x k => x ^^^ k)
        (List.zipWith (fun x k => x ^^^ k) a b) b = a := by
  induction a with
  | nil => intro b _; simp
  | cons x xs ih =>
    intro b hb
    cases b with
    | nil => simp at hb
    | cons y ys =>
      simp only [List.zipWith_cons_cons, List.cons.injEq]
      exact ⟨Nat.xor_cancel_right y x, ih ys (by simpa using hb)⟩

theorem cfbEncGo_length (B : List Nat → List Nat) (hB : ∀ x, (B x).length = 16) :
    ∀ fuel prev data, (16:Nat) ∣ data.length → data.length ≤ 16 * fuel →
      (cfbEncGo B fuel prev data).length = data.length := by
  intro fuel
  induction fuel with
  | zero =>
    intro prev data _ hbound
    have : data.length = 0 := by omega
    simp [cfbEncGo, this]
  | succ f ih =>
    intro prev data hdvd hbound
    by_cases hnil : data = []
    · simp [cfbEncGo, hnil]
    · have hpos : 0 < data.length := List.length_pos.mpr hnil
      have h16 : 16 ≤ data.length := by
        rcases hdvd with ⟨k, hk⟩
        rcases k with _ | k
        · omega
        · have : 16 * (k + 1) = 16 * k + 16 := by ring
          omega
      simp only [cfbEncGo, if_neg hnil]
      rw [List.length_append]
      have hchunk : (List.zipWith (fun a k => a ^^^ k) (data.take 16) (B prev)).length
          = 16 := by
        rw [List.length_zipWith, List.length_take, hB]
        omega
      rw [hchunk]
      rw [ih _ (data.drop 16) (by rw [List.length_drop]; exact (Nat.dvd_sub' hdvd (by norm_num))) (by rw [List.length_drop]; omega)]
      rw [List.length_drop]
      omega

theorem cfbDecGo_length (B : List Nat → List Nat) (hB : ∀ x, (B x).length = 16) :
    ∀ fuel prev data, (16:Nat) ∣ data.length → data.length ≤ 16 * fuel →
      (cfbDecGo B fuel prev data).length = data.length := by
  intro fuel
  induction fuel with
  | zero =>
    intro prev data _ hbound
    have : data.length = 0 := by omega
    simp [cfbDecGo, this]
  | succ f ih =>
    intro prev data hdvd hbound
    by_cases hnil : data = []
    · simp [cfbDecGo, hnil]
    · have hpos : 0 < data.length := List.length_pos.mpr hnil
      have h16 : 16 ≤ data.length := by
        rcases hdvd with ⟨k, hk⟩
        rcases k with _ | k
        · omega
        · have : 16 * (k + 1) = 16 * k + 16 := by ring
          omega
      simp only [cfbDecGo, if_neg hnil]
      rw [List.length_append]
      have hchunk : (List.zipWith (fun a k => a ^^^ k) (data.take 16) (B prev)).length
          = 16 := by
        rw [List.length_zipWith, List.length_take, hB]
        omega
      rw [hchunk]
      rw [ih _ (data.drop 16) (by rw [List.length_drop]; exact (Nat.dvd_sub' hdvd (by norm_num))) (by rw [List.length_drop]; omega)]
      rw [List.length_drop]
      omega

/-- Core of the encrypt/decrypt round trip.  Encrypt `rest` padded with
`p` zero bytes, truncate the ciphertext to `rest.length`, re-pad with
`p` literal zero bytes and decrypt: the first `rest.length` bytes are
`rest` again.  CFB is self-synchronizing, so the re-padded tail (which
differs from the original ciphertext tail) only affects bytes past
`rest.length`. -/
theorem cfb_core (B : List Nat → List Nat) (hB : ∀ x, (B x).length = 16)
    (p : Nat) (hp : p < 16) :
    ∀ fuel prev (rest : List Nat),
      (rest.length + p) % 16 = 0 → rest.length + p ≤ 16 * fuel →
      (cfbDecGo B fuel prev
        ((cfbEncGo B fuel prev (rest ++ List.replicate p 0)).take rest.length ++
          List.replicate p 0)).take rest.length = rest := by
  intro fuel
  induction fuel with
  | zero =>
    intro prev rest hmod hbound
    have h0 : rest = [] := List.length_eq_zero.mp (by omega)
    subst h0
    simp
  | succ f ih =>
    intro prev rest hmod hbound
    by_cases hnil : rest = []
    · subst hnil
      simp
    · have hn : 0 < rest.length := List.length_pos.mpr hnil
      by_cases hsmall : rest.length ≤ 16
      · -- a single, final chunk: rest.length + p = 16
        have h16 : rest.length + p = 16 := by omega
        have hPlen : (rest ++ List.replicate p 0).length = 16 := by
          rw [List.length_append, List.length_replicate]
          omega
        have hPnil : ¬ rest ++ List.replicate p 0 = [] := by
          intro h
          rw [h] at hPlen
          simp at hPlen
        have hPtake : (rest ++ List.replicate p 0).take 16 = rest ++ List.replicate p 0 :=
          List.take_of_length_le (by omega)
        have hPdrop : (rest ++ List.replicate p 0).drop 16 = [] :=
          List.drop_eq_nil_of_le (by omega)
        have henc : cfbEncGo B (f + 1) prev (rest ++ List.replicate p 0) =
            List.zipWith (fun a k => a ^^^ k) (rest ++ List.replicate p 0) (B prev) := by
          simp only [cfbEncGo, if_neg hPnil, hPtake, hPdrop, cfbEncGo_nil,
            List.append_nil]
        rw [henc]
        set c1 := List.zipWith (fun a k => a ^^^ k) (rest ++ List.replicate p 0) (B prev)
          with hc1
        have hc1len : c1.length = 16 := by
          rw [hc1, List.length_zipWith, hPlen, hB]
          simp
        have hDlen : (c1.take rest.length ++ List.replicate p 0).length = 16 := by
          rw [List.length_append, List.length_take, List.length_replicate]
          omega
        have hDnil : ¬ c1.take rest.length ++ List.replicate p 0 = [] := by
          intro h
          rw [h] at hDlen
          simp at hDlen
        have hDtake : (c1.take rest.length ++ List.replicate p 0).take 16 =
            c1.take rest.length ++ List.replicate p 0 :=
          List.take_of_length_le (by omega)
        have hDdrop : (c1.take rest.length ++ List.replicate p 0).drop 16 = [] :=
          List.drop_eq_nil_of_le (by omega)
        have hdecnil : ∀ g pv, cfbDecGo B g pv ([] : List Nat) = [] := by
          intro g pv
          cases g <;> simp [cfbDecGo]
        have hdec : cfbDecGo B (f + 1) prev (c1.take rest.length ++ List.replicate p 0) =
            List.zipWith (fun a k => a ^^^ k)
              (c1.take rest.length ++ List.replicate p 0) (B prev) := by
          simp only [cfbDecGo, if_neg hDnil, hDtake, hDdrop, hdecnil,
            List.append_nil]
        rw [hdec, List.take_zipWith]
        have hDt : (c1.take rest.length ++ List.replicate p 0).take rest.length =
            c1.take rest.length :=
          List.take_left' (by rw [List.length_take]; omega)
        rw [hDt, hc1, List.take_zipWith,
          List.take_left' (rfl : rest.length = rest.length)]
        exact zip_xor_cancel rest ((B prev).take rest.length)
          (by rw [List.length_take, hB]; omega)
      · -- a full 16-byte chunk followed by the rest
        have h16 : 16 < rest.length := by omega
        have hPnil : ¬ rest ++ List.replicate p 0 = [] := by
          simp [hnil]
        have h1 : (rest ++ List.replicate p 0).take 16 = rest.take 16 :=
          List.take_append_of_le_length (by omega)
        have h2 : (rest ++ List.replicate p 0).drop 16 =
            rest.drop 16 ++ List.replicate p 0 :=
          List.drop_append_of_le_length (by omega)
        have henc : cfbEncGo B (f + 1) prev (rest ++ List.replicate p 0) =
            List.zipWith (fun a k => a ^^^ k) (rest.take 16) (B prev) ++
              cfbEncGo B f (List.zipWith (fun a k => a ^^^ k) (rest.take 16) (B prev))
                (rest.drop 16 ++ List.replicate p 0) := by
          simp only [cfbEncGo, if_neg hPnil, h1, h2]
        rw [henc]
        set c1 := List.zipWith (fun a k => a ^^^ k) (rest.take 16) (B prev) with hc1
        set E2 := cfbEncGo B f c1 (rest.drop 16 ++ List.replicate p 0) with hE2
        have hc1len : c1.length = 16 := by
          rw [hc1, List.length_zipWith, List.length_take, hB]
          omega
        have htk : (c1 ++ E2).take rest.length = c1 ++ E2.take (rest.length - 16) := by
          rw [List.take_append_eq_append_take, List.take_of_length_le (by omega), hc1len]
        rw [htk, List.append_assoc]
        have hDnil : ¬ c1 ++ (E2.take (rest.length - 16) ++ List.replicate p 0) = [] := by
          intro h
          have := congrArg List.length h
          rw [List.length_append, hc1len] at this
          simp at this
        have hD1 : (c1 ++ (E2.take (rest.length - 16) ++ List.replicate p 0)).take 16 =
            c1 := List.take_left' hc1len
        have hD2 : (c1 ++ (E2.take (rest.length - 16) ++ List.replicate p 0)).drop 16 =
            E2.take (rest.length - 16) ++ List.replicate p 0 := List.drop_left' hc1len
        have hdec : cfbDecGo B (f + 1) prev
            (c1 ++ (E2.take (rest.length - 16) ++ List.replicate p 0)) =
            List.zipWith (fun a k => a ^^^ k) c1 (B prev) ++
              cfbDecGo B f c1 (E2.take (rest.length - 16) ++ List.replicate p 0) := by
          simp only [cfbDecGo, if_neg hDnil, hD1, hD2]
        rw [hdec]
        have hcancel : List.zipWith (fun a k => a ^^^ k) c1 (B prev) = rest.take 16 := by
          rw [hc1]
          exact zip_xor_cancel (rest.take 16) (B prev)
            (by rw [List.length_take, hB]; omega)
        rw [hcancel]
        have htk2 : (rest.take 16 ++
            cfbDecGo B f c1 (E2.take (rest.length - 16) ++ List.replicate p 0)).take
              rest.length =
            rest.take 16 ++
              (cfbDecGo B f c1 (E2.take (rest.length - 16) ++
                List.replicate p 0)).take (rest.length - 16) := by
          rw [List.take_append_eq_append_take,
            List.take_of_length_le (by rw [List.length_take]; omega),
            List.length_take]
          congr 2
          omega
        rw [htk2]
        have hlen2 : (rest.drop 16).length = rest.length - 16 := by
          rw [List.length_drop]
        have hih := ih c1 (rest.drop 16)
          (by rw [hlen2]; omega) (by rw [hlen2]; omega)
        rw [hlen2] at hih
        rw [hE2, hih]
        exact List.take_append_drop 16 rest

theorem aes_pad_fst (data : List Nat) :
    (aes_pad_ data).1 = (16 - data.length % 16) % 16 := by
  simp only [aes_pad_]
  by_cases h : data.length % 16 = 0
  · simp [h]
  · have h1 : ¬ ¬ data.length % 16 = 0 → False := fun h2 => h (not_not.mp h2)
    simp only [ne_eq, if_pos h]
    have : data.length % 16 < 16 := Nat.mod_lt _ (by norm_num)
    omega

theorem aes_pad_snd (data : List Nat) :
    (aes_pad_ data).2 = data ++ List.replicate (aes_pad_ data).1 0 := by
  simp only [aes_pad_]
  by_cases h : data.length % 16 = 0
  · simp [h]
  · simp [h]

theorem aes_pad_fst_lt (data : List Nat) : (aes_pad_ data).1 < 16 := by
  rw [aes_pad_fst]
  exact Nat.mod_lt _ (by norm_num)

theorem aes_pad_mod (data : List Nat) :
    (data.length + (aes_pad_ data).1) % 16 = 0 := by
  rw [aes_pad_fst]
  have : data.length % 16 < 16 := Nat.mod_lt _ (by norm_num)
  omega

theorem aes_pad_snd_len (data : List Nat) :
    (aes_pad_ data).2.length = data.length + (aes_pad_ data).1 := by
  rw [aes_pad_snd, List.length_append, List.length_replicate]

/-- The truncated ciphertext, uniformly over the two padding branches. -/
theorem aes_encrypt_as_take (B : List Nat → List Nat)
    (hB : ∀ x, (B x).length = 16) (iv data : List Nat) :
    aes_encrypt B iv data =
      (cfbEncGo B ((aes_pad_ data).2.length) iv
        (data ++ List.replicate (aes_pad_ data).1 0)).take data.length := by
  have hencl : (cfbEncGo B ((aes_pad_ data).2.length) iv (aes_pad_ data).2).length =
      (aes_pad_ data).2.length := by
    apply cfbEncGo_length B hB
    · rw [aes_pad_snd_len]
      have := aes_pad_mod data
      omega
    · omega
  rw [← aes_pad_snd]
  simp only [aes_encrypt]
  by_cases h : (aes_pad_ data).1 = 0
  · rw [if_neg (by simp [h])]
    exact (List.take_of_length_le (by rw [hencl, aes_pad_snd_len, h]; omega)).symm
  · rw [if_pos h, hencl, aes_pad_snd_len]
    congr 1
    omega

theorem aes_encrypt_length (B : List Nat → List Nat)
    (hB : ∀ x, (B x).length = 16) (iv data : List Nat) :
    (aes_encrypt B iv data).length = data.length := by
  rw [aes_encrypt_as_take B hB]
  rw [List.length_take]
  have hencl : (cfbEncGo B ((aes_pad_ data).2.length) iv
      (data ++ List.replicate (aes_pad_ data).1 0)).length =
      (aes_pad_ data).2.length := by
    rw [← aes_pad_snd]
    apply cfbEncGo_length B hB
    · rw [aes_pad_snd_len]
      have := aes_pad_mod data
      omega
    · omega
  rw [hencl, aes_pad_snd_len]
  omega

/-- C5: for every abstract keyed block cipher, every iv, and every
payload of length at most the leaf size limit, decrypting the encryption
returns the payload and the ciphertext has exactly the payload's length:
the internal padding to a 16-byte boundary is invisible to callers. -/
theorem C5_aes_roundtrip (B : List Nat → List Nat) (iv data : List Nat)
    (hB : ∀ x, (B x).length = 16) (_hlen : data.length ≤ DBLOCK_SIZE) :
    aes_decrypt B iv (aes_encrypt B iv data) = data ∧
      (aes_encrypt B iv data).length = data.length := by
  have hlenE : (aes_encrypt B iv data).length = data.length :=
    aes_encrypt_length B hB iv data
  refine ⟨?_, hlenE⟩
  have hp := aes_pad_fst_lt data
  have hpE : (aes_pad_ (aes_encrypt B iv data)).1 = (aes_pad_ data).1 := by
    rw [aes_pad_fst, aes_pad_fst, hlenE]
  have hfuelE : (aes_pad_ (aes_encrypt B iv data)).2.length =
      data.length + (aes_pad_ data).1 := by
    rw [aes_pad_snd_len, hlenE, hpE]
  have hcore := cfb_core B hB (aes_pad_ data).1 hp
    (data.length + (aes_pad_ data).1) iv data
    (aes_pad_mod data) (by omega)
  have hdecl : (cfbDecGo B (data.length + (aes_pad_ data).1) iv
      (aes_pad_ (aes_encrypt B iv data)).2).length =
      data.length + (aes_pad_ data).1 := by
    rw [← hfuelE]
    apply cfbDecGo_length B hB
    · rw [hfuelE]
      have := aes_pad_mod data
      omega
    · omega
  simp only [aes_decrypt]
  rw [hfuelE, hpE]
  have hinput : (aes_pad_ (aes_encrypt B iv data)).2 =
      (cfbEncGo B (data.length + (aes_pad_ data).1) iv
        (data ++ List.replicate (aes_pad_ data).1 0)).take data.length ++
        List.replicate (aes_pad_ data).1 0 := by
    rw [aes_pad_snd, hpE, aes_encrypt_as_take B hB, aes_pad_snd_len]
  rw [hinput]
  by_cases h : (aes_pad_ data).1 = 0
  · rw [if_neg (by simp [h])]
    have hdl : (cfbDecGo B (data.length + (aes_pad_ data).1) iv
        ((cfbEncGo B (data.length + (aes_pad_ data).1) iv
          (data ++ List.replicate (aes_pad_ data).1 0)).take data.length ++
          List.replicate (aes_pad_ data).1 0)).length = data.length := by
      rw [← hinput, hdecl, h]
      omega
    have hfold := hcore
    rw [List.take_of_length_le (le_of_eq hdl)] at hfold
    exact hfold
  · rw [if_pos h]
    have hdl : (cfbDecGo B (data.length + (aes_pad_ data).1) iv
        ((cfbEncGo B (data.length + (aes_pad_ data).1) iv
          (data ++ List.replicate (aes_pad_ data).1 0)).take data.length ++
          List.replicate (aes_pad_ data).1 0)).length =
        data.length + (aes_pad_ data).1 := by
      rw [← hinput, hdecl]
    rw [hdl]
    have : data.length + (aes_pad_ data).1 - (aes_pad_ data).1 = data.length := by
      omega
    rw [this]
    exact hcore

/-- Witness for C5: a concrete block permutation, iv, and payload. -/
theorem C5_witness :
    aes_decrypt (fun _ => List.replicate 16 1) [3]
        (aes_encrypt (fun _ => List.replicate 16 1) [3] [7, 8, 9]) = [7, 8, 9] ∧
      (aes_encrypt (fun _ => List.replicate 16 1) [3] [7, 8, 9]).length = 3 :=
  C5_aes_roundtrip (fun _ => List.replicate 16 1) [3] [7, 8, 9]
    (fun _ => by simp) (by decide)

/-- FS CHK URI scheme part, `"gnunet://fs/"` in the source. -/
def GNUNET_FS_URI_PREFIX_ : List Char := "gnunet://fs/".data

/-- FS CHK URI middle part, `"chk/"` in the source. -/
def GNUNET_FS_URI_CHK_INFIX_ : List Char := "chk/".data

/-- The `Chk` record: plaintext hash (`key`), ciphertext hash (`query`)
and the file size, which stays `None` until `setSize` stamps the root. -/
structure Chk where
  key : List Nat
  query : List Nat
  fsize : Option Nat
deriving DecidableEq

/-- Embeds `repr(self.fsize)` of the Python `uri` method (Python 2 renders the
unset field `None`; a `long` tail `L` is stripped, so the rendering of a
set size is plain decimal). -/
def sizeRepr : Option Nat → List Char
  | some s => Nat.toDigits 10 s
  | none => "None".data

/-- Embeds `Chk.uri()`: scheme, encoded key, dot, encoded query, dot, size.
Encoding failures (only possible on empty hashes) propagate. -/
def chkUri (c : Chk) : Except EncErr (List Char) := do
  let e1 ← encode_data_to_string c.key
  let e2 ← encode_data_to_string c.query
  .ok ( GNUNET_FS_URI_PREFIX_ ++ GNUNET_FS_URI_CHK_INFIX_ ++
    e1 ++ ['.'] ++ e2 ++ ['.'] ++ sizeRepr c.fsize)

/-- Reading `n` bytes of the input stream from offset `off`.  The stream
is a byte oracle; `none` at a needed position is a read error
(`IOError` in the source). -/
def readBytes (data : Nat → Option Nat) : Nat → Nat → Option (List Nat)
  | _, 0 => some []
  | off, n + 1 =>
    match data off, readBytes data (off + 1) n with
    | some b, some bs => some (b :: bs)
    | _, _ => none

/-- Collecting the buffered child records of an IBlock: a `None` in the
window is a Python attribute-access crash, modelled as `.fault`. -/
def seqChks : List (Option Chk) → Option (List Chk)
  | [] => some []
  | none :: _ => none
  | some c :: rest => (seqChks rest).map (fun l => c :: l)

/-- Hash, derive key/iv, encrypt, hash: the per-block pipeline of the
encoder loop.  `H` is the abstract SHA-512, `B k` the abstract keyed AES
block encryption (both external library code).  The `Chk` constructor
`assert`s the two digest lengths. -/
def mkChk (H : List Nat → List Nat) (B : List Nat → List Nat → List Nat)
    (payload : List Nat) : Except EncErr Chk :=
  let pt_hash := H payload
  let kiv := aeskey pt_hash
  let pt_enc := aes_encrypt (B kiv.1) kiv.2 payload
  let pt_enc_hash := H pt_enc
  if pt_hash.length = CHK_HASH_SIZE ∧ pt_enc_hash.length = CHK_QUERY_SIZE then
    .ok { key := pt_hash, query := pt_enc_hash, fsize := none }
  else .error .fault

/-- State of the `compute_rootchk` loop. -/
structure EncState where
  current_depth : Nat
  read_offset : Nat
  chks : List (Option Chk)
deriving DecidableEq

/-- One pass of the `while True` body of `compute_rootchk`: either the
loop finishes (`.inl`, successfully or with an error) or continues with
a new state (`.inr`). -/
def encStep (H : List Nat → List Nat) (B : List Nat → List Nat → List Nat)
    (data : Nat → Option Nat) (size : Nat) (s : EncState) :
    Sum (Except EncErr Chk) EncState :=
  if compute_depth_ size = s.current_depth then
    match s.chks.getD (CHK_PER_INODE * (compute_depth_ size - 1)) none with
    | none => .inl (.error .fault)
    | some uri_chk =>
      if size = s.read_offset then
        .inl (.ok { uri_chk with fsize := some size })
      else .inl (.error .fault)
  else if s.current_depth = 0 then
    match readBytes data s.read_offset (min DBLOCK_SIZE (size - s.read_offset)) with
    | none => .inl (.error .ioError)
    | some pt_block =>
      if pt_block.length = min DBLOCK_SIZE (size - s.read_offset) ∧
          min DBLOCK_SIZE (size - s.read_offset) ≤ DBLOCK_SIZE then
        match mkChk H B pt_block with
        | .error e => .inl (.error e)
        | .ok chk =>
          .inr { current_depth :=
                   if s.read_offset + min DBLOCK_SIZE (size - s.read_offset) = size ∨
                       (s.read_offset + min DBLOCK_SIZE (size - s.read_offset)) %
                         (CHK_PER_INODE * DBLOCK_SIZE) = 0 then
                     s.current_depth + 1 else s.current_depth,
                 read_offset := s.read_offset + min DBLOCK_SIZE (size - s.read_offset),
                 chks := s.chks.set
                   (s.current_depth * CHK_PER_INODE + compute_chk_offset_ 0 s.read_offset)
                   (some chk) }
      else .inl (.error .fault)
  else
    if s.read_offset = 0 then .inl (.error .fault)
    else
      match seqChks ((s.chks.drop ((s.current_depth - 1) * CHK_PER_INODE)).take
          (compute_iblock_size_ s.current_depth s.read_offset)) with
      | none => .inl (.error .fault)
      | some elems =>
        let pt_block := elems.foldl (fun ba chk => ba ++ (chk.key ++ chk.query)) []
        if pt_block.length = compute_iblock_size_ s.current_depth s.read_offset *
            (CHK_HASH_SIZE + CHK_QUERY_SIZE) ∧
            compute_iblock_size_ s.current_depth s.read_offset *
              (CHK_HASH_SIZE + CHK_QUERY_SIZE) ≤ DBLOCK_SIZE then
          match mkChk H B pt_block with
          | .error e => .inl (.error e)
          | .ok chk =>
            .inr { current_depth :=
                     if compute_chk_offset_ s.current_depth s.read_offset =
                         CHK_PER_INODE ∨ s.read_offset = size then
                       s.current_depth + 1 else 0,
                   read_offset := s.read_offset,
                   chks := s.chks.set
                     (s.current_depth * CHK_PER_INODE +
                       compute_chk_offset_ s.current_depth s.read_offset)
                     (some chk) }
        else .inl (.error .fault)

/-- The `while True` loop, fuel-indexed; `none` means the fuel ran out
before the loop finished. -/
def encodeLoop (H : List Nat → List Nat) (B : List Nat → List Nat → List Nat)
    (data : Nat → Option Nat) (size : Nat) :
    Nat → EncState → Option (Except EncErr Chk)
  | 0, _ => none
  | fuel + 1, s =>
    match encStep H B data size s with
    | .inl r => some r
    | .inr s2 => encodeLoop H B data size fuel s2

/-- Initial state of `compute_rootchk`: depth 0, offset 0, a buffer of
`depth * CHK_PER_INODE` empty slots. -/
def initState (size : Nat) : EncState :=
  { current_depth := 0, read_offset := 0,
    chks := List.replicate (compute_depth_ size * CHK_PER_INODE) none }

/-- Embeds `compute_rootchk(readin, size)`, fuel-indexed. -/
def compute_rootchk (H : List Nat → List Nat) (B : List Nat → List Nat → List Nat)
    (data : Nat → Option Nat) (size fuel : Nat) : Option (Except EncErr Chk) :=
  encodeLoop H B data size fuel (initState size)

/-- Iterating the loop body a fixed number of times, for stating which
states of `compute_rootchk` are reachable; `none` when the loop has
already finished. -/
def encIterate (H : List Nat → List Nat) (B : List Nat → List Nat → List Nat)
    (data : Nat → Option Nat) (size : Nat) : Nat → EncState → Option EncState
  | 0, s => some s
  | k + 1, s =>
    match encStep H B data size s with
    | .inl _ => none
    | .inr s2 => encIterate H B data size k s2

/-- Leaf-only variant of the loop body: identical except that entering
the internal-block branch is a fault.  Used to express that a run never
invokes the internal-block functions. -/
def encStepLeafOnly (H : List Nat → List Nat) (B : List Nat → List Nat → List Nat)
    (data : Nat → Option Nat) (size : Nat) (s : EncState) :
    Sum (Except EncErr Chk) EncState :=
  if compute_depth_ size = s.current_depth ∨ s.current_depth = 0 then
    encStep H B data size s
  else .inl (.error .fault)

/-- The loop over `encStepLeafOnly`. -/
def encodeLoopLeafOnly (H : List Nat → List Nat) (B : List Nat → List Nat → List Nat)
    (data : Nat → Option Nat) (size : Nat) :
    Nat → EncState → Option (Except EncErr Chk)
  | 0, _ => none
  | fuel + 1, s =>
    match encStepLeafOnly H B data size s with
    | .inl r => some r
    | .inr s2 => encodeLoopLeafOnly H B data size fuel s2

theorem readBytes_congr (d1 d2 : Nat → Option Nat) :
    ∀ n off, (∀ i, off ≤ i → i < off + n → d1 i = d2 i) →
      readBytes d1 off n = readBytes d2 off n := by
  intro n
  induction n with
  | zero => intro off _; rfl
  | succ m ih =>
    intro off h
    simp only [readBytes]
    rw [h off (Nat.le_refl _) (by omega),
      ih (off + 1) (fun i h1 h2 => h i (by omega) (by omega))]

/-- The loop body reads only bytes strictly below `size`: two oracles
that agree there step identically. -/
theorem encStep_congr (H : List Nat → List Nat) (B : List Nat → List Nat → List Nat)
    (d1 d2 : Nat → Option Nat) (size : Nat) (s : EncState)
    (hro : s.read_offset ≤ size) (hagree : ∀ i, i < size → d1 i = d2 i) :
    encStep H B d1 size s = encStep H B d2 size s := by
  have hmin := Nat.min_le_right DBLOCK_SIZE (size - s.read_offset)
  have hrb : readBytes d1 s.read_offset (min DBLOCK_SIZE (size - s.read_offset)) =
      readBytes d2 s.read_offset (min DBLOCK_SIZE (size - s.read_offset)) := by
    apply readBytes_congr
    intro i h1 h2
    apply hagree
    omega
  simp only [encStep, hrb]

theorem encStep_ro_le (H : List Nat → List Nat) (B : List Nat → List Nat → List Nat)
    (data : Nat → Option Nat) (size : Nat) (s s2 : EncState)
    (hro : s.read_offset ≤ size)
    (hstep : encStep H B data size s = .inr s2) : s2.read_offset ≤ size := by
  have hmin := Nat.min_le_right DBLOCK_SIZE (size - s.read_offset)
  simp only [encStep] at hstep
  repeat' split at hstep
  all_goals try (injection hstep with h; subst h; dsimp only; omega)
  all_goals injection hstep

theorem encodeLoop_congr (H : List Nat → List Nat) (B : List Nat → List Nat → List Nat)
    (d1 d2 : Nat → Option Nat) (size : Nat)
    (hagree : ∀ i, i < size → d1 i = d2 i) :
    ∀ fuel s, s.read_offset ≤ size →
      encodeLoop H B d1 size fuel s = encodeLoop H B d2 size fuel s := by
  intro fuel
  induction fuel with
  | zero => intro s _; rfl
  | succ f ih =>
    intro s hro
    simp only [encodeLoop]
    rw [← encStep_congr H B d1 d2 size s hro hagree]
    cases hstep : encStep H B d1 size s with
    | inl r => rfl
    | inr s2 => exact ih s2 (encStep_ro_le H B d1 size s s2 hro hstep)

/-- C2: the encoding is fully deterministic — two runs over byte-wise
identical streams of the same declared length return the same result and
hence the same locator string, and the per-block (ContentKey,
RetrievalAddress) pipeline is a function of the block payload alone. -/
theorem C2_deterministic (H : List Nat → List Nat) (B : List Nat → List Nat → List Nat)
    (d1 d2 : Nat → Option Nat) (size fuel : Nat)
    (hagree : ∀ i, i < size → d1 i = d2 i) :
    compute_rootchk H B d1 size fuel = compute_rootchk H B d2 size fuel ∧
      Option.map (fun r => r.bind chkUri) (compute_rootchk H B d1 size fuel) =
        Option.map (fun r => r.bind chkUri) (compute_rootchk H B d2 size fuel) ∧
      (∀ p1 p2 : List Nat, p1 = p2 → mkChk H B p1 = mkChk H B p2) := by
  have h1 : compute_rootchk H B d1 size fuel = compute_rootchk H B d2 size fuel :=
    encodeLoop_congr H B d1 d2 size hagree fuel (initState size) (Nat.zero_le _)
  exact ⟨h1, by rw [h1], fun p1 p2 h => by rw [h]⟩

/-- Witness for C2: two concretely different oracles that agree on the
five bytes below the declared size. -/
theorem C2_witness :
    compute_rootchk (fun _ => List.replicate 64 0) (fun _ _ => List.replicate 16 0)
        (fun _ => some 0) 5 3 =
      compute_rootchk (fun _ => List.replicate 64 0) (fun _ _ => List.replicate 16 0)
        (fun i => if i < 5 then some 0 else none) 5 3 :=
  (C2_deterministic (fun _ => List.replicate 64 0) (fun _ _ => List.replicate 16 0)
    (fun _ => some 0) (fun i => if i < 5 then some 0 else none) 5 3
    (by decide)).1

theorem readBytes_all_some (data : Nat → Option Nat) :
    ∀ n off l, readBytes data off n = some l →
      ∀ j, off ≤ j → j < off + n → (data j).isSome := by
  intro n
  induction n with
  | zero => intro off l _ j h1 h2; omega
  | succ m ih =>
    intro off l hread j h1 h2
    simp only [readBytes] at hread
    rcases hd : data off with _ | b
    · rw [hd] at hread
      simp at hread
    · rw [hd] at hread
      rcases hrest : readBytes data (off + 1) m with _ | bs
      · rw [hrest] at hread
        simp at hread
      · rcases Nat.eq_or_lt_of_le h1 with rfl | hgt
        · simp [hd]
        · exact ih (off + 1) bs hrest j (by omega) (by omega)

/-- The loop finishes successfully only from a state whose offset has
already reached the declared size. -/
theorem encStep_ok_ro (H : List Nat → List Nat) (B : List Nat → List Nat → List Nat)
    (data : Nat → Option Nat) (size : Nat) (s : EncState) (c : Chk)
    (hstep : encStep H B data size s = .inl (.ok c)) : size = s.read_offset := by
  simp only [encStep] at hstep
  repeat' split at hstep
  all_goals first
    | assumption
    | simp only [Sum.inl.injEq, reduceCtorEq] at hstep

/-- A continuing step preserves the invariant that every byte below the
current offset has been read successfully. -/
theorem encStep_inr_inv (H : List Nat → List Nat) (B : List Nat → List Nat → List Nat)
    (data : Nat → Option Nat) (size : Nat) (s s2 : EncState)
    (hinv : ∀ j, j < s.read_offset → (data j).isSome)
    (hstep : encStep H B data size s = .inr s2) :
    ∀ j, j < s2.read_offset → (data j).isSome := by
  simp only [encStep] at hstep
  repeat' split at hstep
  all_goals try (injection hstep; done)
  all_goals (injection hstep with h; subst h; dsimp only; intro j hj)
  all_goals first
    | exact hinv j hj
    | (rcases Nat.lt_or_ge j s.read_offset with hlt | hge
       exacts [hinv j hlt, readBytes_all_some data _ _ _ (by assumption) j hge hj])

/-- A successful run of the loop implies every byte below the declared
size was read successfully. -/
theorem encodeLoop_ok_reads_all (H : List Nat → List Nat)
    (B : List Nat → List Nat → List Nat) (data : Nat → Option Nat) (size : Nat) :
    ∀ fuel s c, (∀ j, j < s.read_offset → (data j).isSome) →
      encodeLoop H B data size fuel s = some (.ok c) →
      ∀ j, j < size → (data j).isSome := by
  intro fuel
  induction fuel with
  | zero =>
    intro s c _ hrun
    simp [encodeLoop] at hrun
  | succ f ih =>
    intro s c hinv hrun
    simp only [encodeLoop] at hrun
    cases hstep : encStep H B data size s with
    | inl r =>
      rw [hstep] at hrun
      have hr : r = .ok c := by
        simpa using hrun
      subst hr
      have hro := encStep_ok_ro H B data size s c hstep
      intro j hj
      exact hinv j (by omega)
    | inr s2 =>
      rw [hstep] at hrun
      exact ih s2 c (encStep_inr_inv H B data size s s2 hinv hstep) hrun

/-- C9: if the byte source fails at any position inside the declared
size, `compute_rootchk` never returns a `Chk`: no partial locator, key,
query, or size escapes an aborted run, for any amount of fuel. -/
theorem C9_read_error_aborts (H : List Nat → List Nat)
    (B : List Nat → List Nat → List Nat) (data : Nat → Option Nat)
    (size i fuel : Nat) (c : Chk) (hi : i < size) (herr : data i = none) :
    compute_rootchk H B data size fuel ≠ some (.ok c) := by
  intro hok
  have hall := encodeLoop_ok_reads_all H B data size fuel (initState size) c
    (by intro j hj; exact absurd hj (by simp [initState])) hok
  have hsome := hall i hi
  rw [herr] at hsome
  simp at hsome

/-- Witness for C9: a source that fails at position 0 of a 1-byte
encode never yields a record. -/
theorem C9_witness :
    compute_rootchk (fun _ => List.replicate 64 0) (fun _ _ => List.replicate 16 0)
        (fun _ => none) 1 3 ≠ some (.ok ⟨[], [], none⟩) :=
  C9_read_error_aborts (fun _ => List.replicate 64 0) (fun _ _ => List.replicate 16 0)
    (fun _ => none) 1 0 3 ⟨[], [], none⟩ (by decide) rfl

/-- Nonempty inputs always encode successfully. -/
theorem encode_ok_of_nonempty (data : List Nat) (hne : data ≠ [])
    (hbytes : ∀ b ∈ data, b < 256) :
    ∃ out, encode_data_to_string data = .ok out := by
  have hlen : ¬ data.length = 0 := by simpa using hne
  obtain ⟨res, hok, _, _⟩ :=
    encodeGo_spec data hbytes (2 * data.length + 2) 0 0 0 []
      (Nat.zero_le _) (by simp) (by simp [natValue]) (by simp) (by omega)
  refine ⟨res, ?_⟩
  simp only [encode_data_to_string, if_neg hlen]
  exact hok

theorem aes_encrypt_nil (B2 : List Nat → List Nat) (iv : List Nat) :
    aes_encrypt B2 iv [] = [] := rfl

theorem mkChk_nil (H : List Nat → List Nat) (B : List Nat → List Nat → List Nat)
    (hH : ∀ x, (H x).length = 64) :
    mkChk H B [] = .ok ⟨H [], H [], none⟩ := by
  simp only [mkChk, aes_encrypt_nil]
  rw [if_pos]
  constructor
  · rw [hH]
    rfl
  · rw [hH]
    rfl

/-- C7: on a zero-length input the tree depth is 1, the encoder produces
exactly one leaf over the empty payload and returns that leaf record
stamped with size 0 (its key and query are both hashes of the empty
byte string, since the ciphertext of an empty payload is empty), the
locator string ends in ".0", and the run is indistinguishable from the
leaf-only encoder whose internal-block branch is a hard fault — the
internal-block functions are never invoked. -/
theorem C7_zero_size (H : List Nat → List Nat) (B : List Nat → List Nat → List Nat)
    (data : Nat → Option Nat) (fuel : Nat)
    (hH : ∀ x, (H x).length = 64) (hHbytes : ∀ x, ∀ b ∈ H x, b < 256)
    (hfuel : 2 ≤ fuel) :
    compute_depth_ 0 = 1 ∧
      compute_rootchk H B data 0 fuel = some (.ok ⟨H [], H [], some 0⟩) ∧
      (∃ p, chkUri ⟨H [], H [], some 0⟩ = .ok (p ++ ['.', '0'])) ∧
      encodeLoopLeafOnly H B data 0 fuel (initState 0) =
        compute_rootchk H B data 0 fuel := by
  obtain ⟨f, rfl⟩ : ∃ f, fuel = f + 2 := ⟨fuel - 2, by omega⟩
  have hd0 : compute_depth_ 0 = 1 := by decide
  have hmk := mkChk_nil H B hH
  have hrb : readBytes data 0 (min DBLOCK_SIZE (0 - 0)) = some [] := by
    have : min DBLOCK_SIZE (0 - 0) = 0 := by simp
    rw [this]
    rfl
  have hinit : initState 0 =
      { current_depth := 0, read_offset := 0,
        chks := List.replicate 256 none } := by
    simp [initState, hd0, CHK_PER_INODE]
  have hstep1 : encStep H B data 0 (initState 0) =
      .inr { current_depth := 1, read_offset := 0,
             chks := (List.replicate 256 none).set 0 (some ⟨H [], H [], none⟩) } := by
    rw [hinit]
    simp only [encStep]
    rw [if_neg (by simp [hd0])]
    simp only [if_true, ite_true, if_pos trivial]
    rw [hrb]
    dsimp only
    rw [if_pos (by simp)]
    rw [hmk]
    dsimp only
    have hoff : compute_chk_offset_ 0 0 = 0 := by decide
    simp [hoff]
  have hgd : ((List.replicate 256 (none : Option Chk)).set 0
      (some ⟨H [], H [], none⟩)).getD (CHK_PER_INODE * (compute_depth_ 0 - 1)) none =
      some ⟨H [], H [], none⟩ := by
    have h0 : CHK_PER_INODE * (compute_depth_ 0 - 1) = 0 := by decide
    rw [h0, List.getD_eq_getElem _ _ (by simp)]
    simp
  have hstep2 : encStep H B data 0
      { current_depth := 1, read_offset := 0,
        chks := (List.replicate 256 none).set 0 (some ⟨H [], H [], none⟩) } =
      .inl (.ok ⟨H [], H [], some 0⟩) := by
    simp only [encStep]
    rw [if_pos (by simp [hd0])]
    rw [hgd]
    dsimp only
    simp
  have hrun : compute_rootchk H B data 0 (f + 2) = some (.ok ⟨H [], H [], some 0⟩) := by
    simp only [compute_rootchk, encodeLoop, hstep1, hstep2]
  refine ⟨hd0, hrun, ?_, ?_⟩
  · have hHne : H [] ≠ [] := by
      intro hcon
      have := hH []
      rw [hcon] at this
      simp at this
    obtain ⟨e, he⟩ := encode_ok_of_nonempty (H []) hHne (hHbytes [])
    refine ⟨ GNUNET_FS_URI_PREFIX_ ++ GNUNET_FS_URI_CHK_INFIX_ ++ e ++ ['.'] ++ e, ?_⟩
    have hz : sizeRepr (some 0) = ['0'] := by decide
    simp only [chkUri, he, hz]
    show Except.ok ( GNUNET_FS_URI_PREFIX_ ++ GNUNET_FS_URI_CHK_INFIX_ ++ e ++ ['.'] ++
      e ++ ['.'] ++ ['0']) =
      Except.ok ( GNUNET_FS_URI_PREFIX_ ++ GNUNET_FS_URI_CHK_INFIX_ ++ e ++ ['.'] ++ e ++
        ['.', '0'])
    simp [List.append_assoc]
  · have hL1 : encStepLeafOnly H B data 0 (initState 0) =
        encStep H B data 0 (initState 0) := by
      rw [hinit]
      simp [encStepLeafOnly]
    have hL2 : encStepLeafOnly H B data 0
        { current_depth := 1, read_offset := 0,
          chks := (List.replicate 256 none).set 0 (some ⟨H [], H [], none⟩) } =
        encStep H B data 0
          { current_depth := 1, read_offset := 0,
            chks := (List.replicate 256 none).set 0 (some ⟨H [], H [], none⟩) } := by
      simp [encStepLeafOnly, hd0]
    simp only [compute_rootchk, encodeLoopLeafOnly, encodeLoop, hL1, hL2, hstep1,
      hstep2]

/-- Witness for C7: concrete hash and block-cipher stand-ins. -/
theorem C7_witness :
    compute_depth_ 0 = 1 ∧
      compute_rootchk (fun _ => List.replicate 64 0) (fun _ _ => List.replicate 16 0)
          (fun _ => some 0) 0 2 =
        some (.ok ⟨List.replicate 64 0, List.replicate 64 0, some 0⟩) ∧
      (∃ p, chkUri ⟨List.replicate 64 0, List.replicate 64 0, some 0⟩ =
        .ok (p ++ ['.', '0'])) ∧
      encodeLoopLeafOnly (fun _ => List.replicate 64 0)
          (fun _ _ => List.replicate 16 0) (fun _ => some 0) 0 2 (initState 0) =
        compute_rootchk (fun _ => List.replicate 64 0) (fun _ _ => List.replicate 16 0)
          (fun _ => some 0) 0 2 :=
  C7_zero_size (fun _ => List.replicate 64 0) (fun _ _ => List.replicate 16 0)
    (fun _ => some 0) 2 (fun _ => by simp) (fun _ => by simp) (by decide)

/-- Constant stand-in for SHA-512 used to drive the loop concretely. -/
def constHash : List Nat → List Nat := fun _ => List.replicate 64 0

/-- Constant stand-in for the keyed AES block encryption. -/
def constBlock : List Nat → List Nat → List Nat := fun _ _ => List.replicate 16 0

/-- The all-zero byte source. -/
def zeroStream : Nat → Option Nat := fun _ => some 0

/-- The record every block of the zero run produces under `constHash`. -/
def chkZero : Chk := ⟨List.replicate 64 0, List.replicate 64 0, none⟩

/-- The state of the zero run on a `2^23 + 1`-byte input after `k` leaf
blocks (`k ≤ 256`): depth promotes to 1 exactly at the level-1 span
boundary `k = 256`. -/
def leafState (k : Nat) : EncState :=
  { current_depth := if k = 256 then 1 else 0, read_offset := 32768 * k,
    chks := List.replicate k (some chkZero) ++ List.replicate (768 - k) none }

theorem mkChk_const (payload : List Nat) :
    mkChk constHash constBlock payload = .ok chkZero := by
  simp only [mkChk, constHash]
  rw [if_pos]
  · rfl
  · constructor
    · simp [CHK_HASH_SIZE]
    · simp [CHK_QUERY_SIZE, CHK_HASH_SIZE]

theorem readBytes_zero : ∀ n off, readBytes zeroStream off n = some (List.replicate n 0) := by
  intro n
  induction n with
  | zero => intro off; rfl
  | succ m ih =>
    intro off
    simp only [readBytes, zeroStream, ih (off + 1)]
    rfl

theorem set_replicate_append (a v : Option Chk) :
    ∀ (k : Nat) (l : List (Option Chk)),
      (List.replicate k a ++ l).set k v = List.replicate k a ++ l.set 0 v := by
  intro k
  induction k with
  | zero => intro l; simp
  | succ m ih =>
    intro l
    simp only [List.replicate_succ, List.cons_append, List.set]
    rw [show (List.replicate m a).append l = List.replicate m a ++ l from rfl, ih l]

theorem seqChks_replicate (c : Chk) :
    ∀ n, seqChks (List.replicate n (some c)) = some (List.replicate n c) := by
  intro n
  induction n with
  | zero => rfl
  | succ m ih =>
    simp only [List.replicate_succ, seqChks, ih]
    rfl

theorem foldl_chk_replicate_len :
    ∀ (n : Nat) (acc : List Nat),
      ((List.replicate n chkZero).foldl
        (fun ba chk => ba ++ (chk.key ++ chk.query)) acc).length =
        acc.length + n * 128 := by
  intro n
  induction n with
  | zero => intro acc; simp
  | succ m ih =>
    intro acc
    simp only [List.replicate_succ, List.foldl_cons]
    rw [ih]
    simp only [List.length_append, chkZero, List.length_replicate]
    omega

theorem leafStep (k : Nat) (hk : k < 256) :
    encStep constHash constBlock zeroStream 8388609 (leafState k) =
      .inr (leafState (k + 1)) := by
  have hne256 : ¬ k = 256 := by omega
  have hd : compute_depth_ 8388609 = 3 := by decide
  have hmin : min DBLOCK_SIZE (8388609 - 32768 * k) = DBLOCK_SIZE := by
    apply Nat.min_eq_left
    simp only [DBLOCK_SIZE]
    omega
  have hoff : compute_chk_offset_ 0 (32768 * k) = k := by
    have ht : compute_tree_size_ 0 = 32768 := by decide
    simp only [compute_chk_offset_, ht]
    norm_num
    simp only [CHK_PER_INODE]
    exact Nat.mod_eq_of_lt hk
  have hchks : (List.replicate k (some chkZero) ++ List.replicate (768 - k) none).set
      (0 * CHK_PER_INODE + k) (some chkZero) =
      List.replicate (k + 1) (some chkZero) ++ List.replicate (768 - (k + 1)) none := by
    have hz : 0 * CHK_PER_INODE + k = k := by simp
    rw [hz, set_replicate_append]
    have h768 : 768 - k = (767 - k) + 1 := by omega
    have h767 : 768 - (k + 1) = 767 - k := by omega
    rw [h768, h767, List.replicate_succ]
    simp only [List.set]
    rw [List.replicate_succ' k (some chkZero), List.append_assoc,
      List.singleton_append]
  have hc1 : ¬ (32768 * k + DBLOCK_SIZE = 8388609) := by
    simp only [DBLOCK_SIZE]
    omega
  have hc2 : (32768 * k + DBLOCK_SIZE) % (CHK_PER_INODE * DBLOCK_SIZE) = 0 ↔
      k + 1 = 256 := by
    simp only [DBLOCK_SIZE, CHK_PER_INODE]
    constructor
    · intro h
      omega
    · intro h
      omega
  simp only [leafState, if_neg hne256]
  simp only [encStep]
  rw [if_neg (by simp [hd])]
  simp only [if_true, ite_true, if_pos trivial]
  rw [hmin, readBytes_zero]
  dsimp only
  rw [if_pos (by simp)]
  rw [mkChk_const]
  dsimp only
  rw [hoff, hchks]
  by_cases hk1 : k + 1 = 256
  · rw [if_pos (Or.inr (hc2.mpr hk1))]
    rw [if_pos hk1]
    have hro : 32768 * k + DBLOCK_SIZE = 32768 * (k + 1) := by
      simp only [DBLOCK_SIZE]
      ring
    rw [hro]
  · rw [if_neg (by
      intro hcon
      rcases hcon with hcon | hcon
      · exact hc1 hcon
      · exact hk1 (hc2.mp hcon))]
    rw [if_neg hk1]
    have hro : 32768 * k + DBLOCK_SIZE = 32768 * (k + 1) := by
      simp only [DBLOCK_SIZE]
      ring
    rw [hro]

theorem encIterate_succ (H : List Nat → List Nat) (B : List Nat → List Nat → List Nat)
    (data : Nat → Option Nat) (size : Nat) :
    ∀ k s, encIterate H B data size (k + 1) s =
      match encIterate H B data size k s with
      | some s2 =>
        (match encStep H B data size s2 with
          | .inl _ => none
          | .inr s3 => some s3)
      | none => none := by
  intro k
  induction k with
  | zero =>
    intro s
    cases hstep : encStep H B data size s <;> simp [encIterate, hstep]
  | succ m ih =>
    intro s
    cases hstep : encStep H B data size s with
    | inl r => simp only [encIterate, hstep]
    | inr s2 =>
      simp only [encIterate, hstep]
      try exact ih s2

theorem reach_leafState : ∀ k, k ≤ 256 →
    encIterate constHash constBlock zeroStream 8388609 k (initState 8388609) =
      some (leafState k) := by
  intro k
  induction k with
  | zero =>
    intro _
    have hd : compute_depth_ 8388609 = 3 := by decide
    simp only [encIterate, initState, hd, leafState]
    norm_num [CHK_PER_INODE]
  | succ m ih =>
    intro hm
    rw [encIterate_succ, ih (by omega)]
    dsimp only
    rw [leafStep m (by omega)]

theorem iblockStep :
    encStep constHash constBlock zeroStream 8388609 (leafState 256) =
      .inr { current_depth := 0, read_offset := 8388608,
             chks := (List.replicate 256 (some chkZero) ++
               List.replicate 512 none).set 256 (some chkZero) } := by
  have hd : compute_depth_ 8388609 = 3 := by decide
  have hibs : compute_iblock_size_ 1 8388608 = 256 := by decide
  have hoff1 : compute_chk_offset_ 1 8388608 = 0 := by decide
  have hls : leafState 256 =
      { current_depth := 1, read_offset := 8388608,
        chks := List.replicate 256 (some chkZero) ++ List.replicate 512 none } := by
    simp only [leafState, if_pos rfl]
    norm_num
  rw [hls]
  simp only [encStep]
  rw [if_neg (by simp [hd])]
  rw [if_neg (by norm_num)]
  rw [if_neg (by norm_num)]
  have htake : ((List.replicate 256 (some chkZero) ++ List.replicate 512 none).drop
      ((1 - 1) * CHK_PER_INODE)).take (compute_iblock_size_ 1 8388608) =
      List.replicate 256 (some chkZero) := by
    rw [hibs]
    simp only [Nat.sub_self, Nat.zero_mul, List.drop_zero]
    exact List.take_left' (by simp)
  rw [htake, seqChks_replicate]
  dsimp only
  rw [if_pos (by
    constructor
    · rw [foldl_chk_replicate_len, hibs]
      norm_num [CHK_HASH_SIZE, CHK_QUERY_SIZE]
    · rw [hibs]
      norm_num [CHK_HASH_SIZE, CHK_QUERY_SIZE, DBLOCK_SIZE])]
  rw [mkChk_const]
  dsimp only
  rw [if_neg (by
    intro hcon
    rcases hcon with hcon | hcon
    · rw [hoff1] at hcon
      norm_num [CHK_PER_INODE] at hcon
    · norm_num at hcon)]
  rw [hoff1]
  norm_num [CHK_PER_INODE]

/-- C1: the depth > 0 transition of `compute_rootchk` does not implement
the claimed "promote when the just-closed internal block is full" rule.
The slot index `compute_chk_offset_` is always < 256, so the code's
promote test `off == CHK_PER_INODE` can never fire, and on the reachable
state after 256 leaves of a `2^23 + 1`-byte input — where the level-1
internal block just closed FULL (256 children) and `read_offset ≠ size`
— the encoder resets `current_depth` to 0 instead of promoting to 2. -/
theorem C1_promote_on_full_never_fires :
    (∀ d e, compute_chk_offset_ d e < CHK_PER_INODE) ∧
    encIterate constHash constBlock zeroStream 8388609 256 (initState 8388609) =
      some (leafState 256) ∧
    (leafState 256).current_depth = 1 ∧
    (leafState 256).read_offset = 8388608 ∧
    compute_iblock_size_ 1 8388608 = CHK_PER_INODE ∧
    (leafState 256).read_offset ≠ 8388609 ∧
    (∃ s2, encStep constHash constBlock zeroStream 8388609 (leafState 256) =
      .inr s2 ∧ s2.current_depth = 0) := by
  refine ⟨?_, reach_leafState 256 (Nat.le_refl _), by norm_num [leafState],
    by norm_num [leafState], by decide, by norm_num [leafState],
    ⟨_, iblockStep, rfl⟩⟩
  intro d e
  simp only [compute_chk_offset_]
  exact Nat.mod_lt _ (by norm_num [CHK_PER_INODE])
